import Mathlib

/-!
Verification of the saws completion engine specification against the code.

The repository ships `saws/saws.py` (the CLI orchestrator: `run_cli`,
`handle_docs`, `colorize_output`, `refresh_resources`) together with tests.
The completion engine itself (`completer`, `resources`, `commands` modules)
is imported by `saws.py` but its source is not part of the excerpt, so those
components are modelled from the specification; every such definition is
marked `Modelled from the spec:` in its doc comment.  Whitespace is modelled
as the space character, the only whitespace occurring in the grammar data
and in the spec's examples.
-/

/-- Split a character list on spaces, keeping empty fields, as Python's
`str.split(' ')` does.  `joinSp` is its exact inverse. -/
def splitSp : List Char → List (List Char)
  | [] => [[]]
  | c :: cs =>
    if c = ' ' then [] :: splitSp cs
    else
      match splitSp cs with
      | [] => [[c]]
      | t :: ts => (c :: t) :: ts

/-- Join fields with single spaces, the inverse of `splitSp`. -/
def joinSp : List (List Char) → List Char
  | [] => []
  | [t] => t
  | t :: t2 :: ts => t ++ ' ' :: joinSp (t2 :: ts)

theorem splitSp_ne_nil (l : List Char) : splitSp l ≠ [] := by
  induction l with
  | nil => simp [splitSp]
  | cons c cs ih =>
    simp only [splitSp]
    split
    · simp
    · cases h : splitSp cs with
      | nil => simp
      | cons t ts => simp

theorem joinSp_cons (t : List Char) (ts : List (List Char)) (h : ts ≠ []) :
    joinSp (t :: ts) = t ++ ' ' :: joinSp ts := by
  cases ts with
  | nil => exact absurd rfl h
  | cons t2 ts2 => rfl

theorem joinSp_splitSp (l : List Char) : joinSp (splitSp l) = l := by
  induction l with
  | nil => rfl
  | cons c cs ih =>
    simp only [splitSp]
    split
    · rename_i hc
      rw [joinSp_cons _ _ (splitSp_ne_nil cs), ih, hc]
      rfl
    · cases h : splitSp cs with
      | nil => exact absurd h (splitSp_ne_nil cs)
      | cons t ts =>
        rw [h] at ih
        cases ts with
        | nil => simpa [joinSp] using ih
        | cons t2 ts2 =>
          simp only [joinSp] at ih ⊢
          rw [List.cons_append, ih]

theorem splitSp_append (l r : List Char) :
    splitSp (l ++ ' ' :: r) = splitSp l ++ splitSp r := by
  induction l with
  | nil => simp [splitSp]
  | cons c cs ih =>
    simp only [List.cons_append, splitSp]
    split
    · simp [ih]
    · simp only [List.append_eq] at *
      rw [ih]
      cases h : splitSp cs with
      | nil => exact absurd h (splitSp_ne_nil cs)
      | cons t ts => simp

theorem splitSp_no_space (l : List Char) (h : ' ' ∉ l) : splitSp l = [l] := by
  induction l with
  | nil => rfl
  | cons c cs ih =>
    simp only [splitSp]
    have hc : ¬ c = ' ' := fun he => h (he ▸ List.mem_cons_self c cs)
    rw [if_neg hc, ih (fun hm => h (List.mem_cons_of_mem c hm))]

/-- Whitespace-split tokens of a line: the non-empty fields of `splitSp`. -/
def wordsOf (line : String) : List String :=
  ((splitSp line.data).filter (fun t => !t.isEmpty)).map String.mk

/-- Drop leading spaces. -/
def lstripSp (l : List Char) : List Char := l.dropWhile (· = ' ')

/-- Python's `str.strip()`: drop leading and trailing spaces. -/
def pyStrip (l : List Char) : List Char := (lstripSp (lstripSp l).reverse).reverse

/-- Modelled from the spec: the Shortcut Table (section 4.2) of the missing
`completer` module, an alias-to-expansion association list; lookup is by the
first binding of the alias. -/
def lookupExp (table : List (String × String)) (a : String) : Option String :=
  match table.find? (fun p => p.1 == a) with
  | some p => some p.2
  | none => none

/-- Modelled from the spec: one expansion pass of the missing
`completer.replace_shortcut` (section 4.2) on the token fields of a line —
the first token that exactly matches a registered alias is replaced by its
full expansion, applied once per invocation. -/
def expandToks (table : List (String × String)) : List (List Char) → List (List Char)
  | [] => []
  | t :: ts =>
    match lookupExp table (String.mk t) with
    | some e => e.data :: ts
    | none => t :: expandToks table ts

/-- Modelled from the spec: the missing `completer.replace_shortcut`
(section 4.2) — replace the single leftmost alias token of the line by its
expansion; a line with no alias token is returned unchanged. -/
def replace_shortcut (table : List (String × String)) (line : String) : String :=
  String.mk (joinSp (expandToks table (splitSp line.data)))

theorem expandToks_no_alias (table : List (String × String)) (ts : List (List Char))
    (h : ∀ t ∈ ts, lookupExp table (String.mk t) = none) :
    expandToks table ts = ts := by
  induction ts with
  | nil => rfl
  | cons t ts ih =>
    simp only [expandToks]
    rw [h t (List.mem_cons_self t ts)]
    rw [ih (fun u hu => h u (List.mem_cons_of_mem t hu))]

/-- Helper shared by the shortcut claims: a line none of whose tokens
(including the empty fields produced by repeated spaces) is a registered
alias is left unchanged by `replace_shortcut`. -/
theorem replace_shortcut_no_alias (table : List (String × String)) (line : String)
    (hempty : lookupExp table "" = none)
    (hwords : ∀ t ∈ wordsOf line, lookupExp table t = none) :
    replace_shortcut table line = line := by
  unfold replace_shortcut
  have hall : ∀ t ∈ splitSp line.data, lookupExp table (String.mk t) = none := by
    intro t ht
    by_cases he : t.isEmpty
    · have : t = [] := by cases t <;> simp_all [List.isEmpty]
      subst this
      exact hempty
    · apply hwords
      unfold wordsOf
      exact List.mem_map_of_mem String.mk (List.mem_filter.mpr ⟨ht, by simpa using he⟩)
  rw [expandToks_no_alias table _ hall, joinSp_splitSp]

/-- Case-insensitive character list: lowercase every character. -/
def lowerL (l : List Char) : List Char := l.map Char.toLower

/-- Case-insensitive prefix test used by the completion engine's filtering. -/
def startsWithCI (pre s : String) : Bool :=
  (lowerL pre.data).isPrefixOf (lowerL s.data)

/-- Modelled from the spec: the Grammar Store (section 3) of the missing
`commands` module — immutable tables of commands, per-command sub-commands,
global and resource options, enumerated option values, and the resource
kinds backing dynamically valued options; `root` is the designated root
command token. -/
structure Grammar where
  root : String
  commands : List String
  subCommands : List (String × List String)
  globalOptions : List String
  resourceOptions : List (String × List String)
  enumValues : List (String × List String)
  resourceKinds : List (String × String)
deriving DecidableEq, Repr

/-- Look up a string key in an association list of candidate lists. -/
def assocL (m : List (String × List String)) (k : String) : List String :=
  match m.find? (fun p => p.1 == k) with
  | some p => p.2
  | none => []

/-- Look up a string key in an association list of strings. -/
def assocS (m : List (String × String)) (k : String) : Option String :=
  match m.find? (fun p => p.1 == k) with
  | some p => some p.2
  | none => none

/-- Sub-commands of a parent command in the Grammar Store. -/
def subsOf (g : Grammar) (parent : String) : List String := assocL g.subCommands parent

/-- Whether an option token is known to take a value, either an enumerated
state set or a resource-cache kind (section 4.1 rule 5). -/
def takesValue (g : Grammar) (t : String) : Bool :=
  (assocL g.enumValues t ≠ []) || (assocS g.resourceKinds t).isSome

/-- Modelled from the spec: the completion contexts of the Tokenizer &
Context Resolver (section 4.1).  `unknownCmd` is the absorbing state for an
unknown first token; it presents COMMAND candidates and never advances. -/
inductive Ctx where
  | command
  | unknownCmd
  | subcommand (parent : String)
  | option (parent sub : String)
  | optionValue (parent sub opt : String)
deriving DecidableEq, Repr

/-- Whether a context is still the COMMAND grammatical position. -/
def isCommandCtx : Ctx → Bool
  | .command => true
  | .unknownCmd => true
  | _ => false

/-- Modelled from the spec: one transition of the context classifier on a
completed token (section 4.1 rules 1-5): only exact token equality with a
grammar entry advances the grammatical position. -/
def step (g : Grammar) : Ctx → String → Ctx
  | .command, t => if t ∈ g.commands then .subcommand t else .unknownCmd
  | .unknownCmd, _ => .unknownCmd
  | .subcommand p, t => if t ∈ subsOf g p then .option p t else .subcommand p
  | .option p s, t => if takesValue g t then .optionValue p s t else .option p s
  | .optionValue p s _, _ => .option p s

/-- Modelled from the spec: whether an exactly typed, not yet
space-terminated final token already advances the context (section 4.1
rule 2 and the tie-break: exact equality wins over an in-progress prefix). -/
def advances (g : Grammar) : Ctx → String → Bool
  | .command, t => decide (t ∈ g.commands)
  | .unknownCmd, _ => false
  | .subcommand p, t => decide (t ∈ subsOf g p)
  | .option _ _, t => takesValue g t
  | .optionValue _ _ _, _ => false

/-- Tokens of the line with the designated root command token stripped. -/
def effTokens (g : Grammar) (line : String) : List String :=
  match wordsOf line with
  | [] => []
  | t :: ts => if t = g.root then ts else t :: ts

/-- Whether the line ends in a space, meaning the next token is expected. -/
def trailingSp (line : String) : Bool := line.data.getLast? == some ' '

/-- The partial token under completion: empty on a trailing space. -/
def fragment (g : Grammar) (line : String) : String :=
  if trailingSp line then "" else (effTokens g line).getLastD ""

/-- The space-terminated tokens preceding the fragment. -/
def completedToks (g : Grammar) (line : String) : List String :=
  if trailingSp line then effTokens g line else (effTokens g line).dropLast

/-- Modelled from the spec: the missing Tokenizer & Context Resolver
(section 4.1) — fold the classifier over the completed tokens, then let an
exactly matching final token advance one more position (tie-break rule),
returning the resolved context and the remaining partial fragment. -/
def resolveCtx (g : Grammar) (line : String) : Ctx × String :=
  let ctx := (completedToks g line).foldl (step g) Ctx.command
  let frag := fragment g line
  if frag = "" then (ctx, frag)
  else if advances g ctx frag then (step g ctx frag, "") else (ctx, frag)

/-- Modelled from the spec: the raw candidate set per context (sections 4.1
and 4.5) — commands plus, in COMMAND context with shortcut mode on, the
shortcut aliases; sub-commands of the parent; global plus resource options;
enumerated states or cached dynamic values for a valued option. -/
def rawCandidates (g : Grammar) (dyn : List (String × List String))
    (aliases : List String) (shortcutMode : Bool) : Ctx → List String
  | .command => g.commands ++ (if shortcutMode then aliases else [])
  | .unknownCmd => g.commands ++ (if shortcutMode then aliases else [])
  | .subcommand p => subsOf g p
  | .option _ s => g.globalOptions ++ assocL g.resourceOptions s
  | .optionValue _ _ o =>
    assocL g.enumValues o ++
      (match assocS g.resourceKinds o with
       | some k => assocL dyn k
       | none => [])

/-- Alphabetical (lexicographic) ordering of a candidate group. -/
def sortAlpha (l : List String) : List String := l.insertionSort (· ≤ ·)

/-- Modelled from the spec: the subsequence test of the missing Fuzzy
Matcher (section 4.4) — every character of the input occurs in the
candidate, in order. -/
def subseqB : List Char → List Char → Bool
  | [], _ => true
  | _ :: _, [] => false
  | a :: as, b :: bs => if a = b then subseqB as bs else subseqB (a :: as) bs

/-- Modelled from the spec: `score` of the missing Fuzzy Matcher
(section 4.4) — case-insensitive subsequence match of the input inside the
candidate. -/
def score (candidate input : String) : Bool :=
  subseqB (lowerL input.data) (lowerL candidate.data)

/-- Modelled from the spec: the missing Completion Engine orchestrator
`complete` (section 4.5) — resolve the context, gather and deduplicate the
raw candidates, filter by case-insensitive prefix of the fragment, fall
back to fuzzy subsequence filtering of the raw set when the prefix group is
empty and fuzzy mode is on, and sort each group alphabetically, the
exact-prefix group first. -/
def complete (g : Grammar) (table : List (String × String))
    (dyn : List (String × List String)) (fuzzyMode shortcutMode : Bool)
    (line : String) : List String :=
  let r := resolveCtx g line
  let raw := (rawCandidates g dyn (table.map (fun p => p.1)) shortcutMode r.1).dedup
  let exact := raw.filter (fun c => startsWithCI r.2 c)
  let exactG := sortAlpha exact
  let fuzzyG :=
    if exact.isEmpty && fuzzyMode then sortAlpha (raw.filter (fun c => score c r.2))
    else []
  exactG ++ fuzzyG

/-- Example grammar used for concrete witnesses and counterexamples. -/
def egGrammar : Grammar :=
  { root := "aws"
    commands := ["ec2"]
    subCommands := [("ec2", ["describe-instances"])]
    globalOptions := []
    resourceOptions := []
    enumValues := [("--instance-state-name", ["running", "stopped", "terminated"])]
    resourceKinds := [] }

/-- Modelled from the spec: the freshness flag of a Resource Cache entry
(section 3). -/
inductive CacheState where
  | populated
  | stale
  | empty
deriving DecidableEq, Repr

/-- Modelled from the spec: a Resource Cache entry (section 3) — the cached
value sequence for a resource kind together with its freshness flag. -/
structure CacheEntry where
  values : List String
  state : CacheState
deriving DecidableEq, Repr

/-- Modelled from the spec: the outcome of the injected external resource
fetcher (section 6) — a value sequence, or a transport/availability failure
(process error, network failure, permission denial, timeout). -/
inductive FetchResult where
  | ok (values : List String)
  | failure
deriving DecidableEq, Repr

/-- The Resource Cache contents: resource kind to entry. -/
abbrev ResourceCache := List (String × CacheEntry)

/-- Look up a resource kind in the cache. -/
def lookupEntry (m : ResourceCache) (kind : String) : Option CacheEntry :=
  match m.find? (fun p => p.1 == kind) with
  | some p => some p.2
  | none => none

/-- Replace the entry of a resource kind wholesale. -/
def setEntry (m : ResourceCache) (kind : String) (e : CacheEntry) : ResourceCache :=
  (kind, e) :: m.filter (fun p => !(p.1 == kind))

/-- Modelled from the spec: the missing `resources.refresh` (section 4.3) —
re-invoke the external source (or serve the memoized entry when it exists
and no refresh is forced) and replace the cached sequence; a fetch failure
yields the empty sequence and records the EMPTY state instead of
propagating the error (the function is total: no exception escapes). -/
def refresh (fetch : String → FetchResult) (m : ResourceCache) (kind : String)
    (force : Bool) : ResourceCache × List String :=
  match lookupEntry m kind, force with
  | some e, false => (m, e.values)
  | _, _ =>
    match fetch kind with
    | .ok vs => (setEntry m kind ⟨vs, .populated⟩, vs)
    | .failure => (setEntry m kind ⟨[], .empty⟩, [])

/-- Modelled from the spec: the missing `resources.get` (section 4.3) —
lazy population on first call, memoized afterwards. -/
def AwsResources.get (fetch : String → FetchResult) (m : ResourceCache)
    (kind : String) : ResourceCache × List String :=
  refresh fetch m kind false

/-- Greedy leftmost positions at which the input characters match inside
the candidate, used for the fuzzy ranking. -/
def posAux : List Char → List Char → Nat → List Nat
  | _, [], _ => []
  | [], _ :: _, _ => []
  | a :: as, b :: bs, i =>
    if a = b then i :: posAux as bs (i + 1) else posAux (a :: as) bs (i + 1)

/-- Greedy match positions of the lowercased input inside the lowercased
candidate. -/
def matchPositions (input candidate : String) : List Nat :=
  posAux (lowerL input.data) (lowerL candidate.data) 0

/-- Modelled from the spec: the ranking key of the Fuzzy Matcher
(section 4.4) — shorter candidates first, then candidates whose matched
characters occur earliest (greedy positions compared lexicographically),
then the candidate itself lexicographically. -/
def rankKey (input c : String) : Lex (Nat × Lex (List Nat × String)) :=
  toLex (c.length, toLex (matchPositions input c, c))

/-- The fuzzy ranking relation induced by `rankKey`. -/
def rankLe (input a b : String) : Prop := rankKey input a ≤ rankKey input b

instance (input : String) : DecidableRel (rankLe input) :=
  fun a b => inferInstanceAs (Decidable (rankKey input a ≤ rankKey input b))

/-- Modelled from the spec: the matches returned by the missing Fuzzy
Matcher (section 4.4) — the candidates whose score reports a match, in the
deterministic ranking order. -/
def fuzzyMatches (input : String) (cands : List String) : List String :=
  (cands.filter (fun c => score c input)).insertionSort (rankLe input)

/-- Modelled from the spec: `AWS_COMMAND` of the missing `commands` module —
the wrapped tool's command word, as printed by `run_cli`'s own usage
message (`usage: aws [options] ...`). -/
def AWS_COMMAND : List String := ["aws"]

/-- Modelled from the spec: `AWS_CONFIGURE` of the missing `commands`
module — the `configure` command named by `colorize_output`'s docstring. -/
def AWS_CONFIGURE : List String := ["configure"]

/-- Modelled from the spec: `AWS_HELP` of the missing `commands` module —
the `help` command named by `colorize_output`'s docstring. -/
def AWS_HELP : List String := ["help"]

/-- Modelled from the spec: `AWS_DOCS` of the missing `commands` module —
the `docs` command named by `handle_docs`'s docstring. -/
def AWS_DOCS : List String := ["docs"]

/-- Documentation base URL of `Saws.handle_docs`. -/
def base_url : String := "http://docs.aws.amazon.com/cli/latest/reference/"

/-- Documentation index page name of `Saws.handle_docs`. -/
def index_html : String := "index.html"

/-- Final lines of `Saws.handle_docs`: open the index page and return True
when invoked from the F1 key or when `docs` is among the tokens, else
return False; `pre` carries the pages already opened on the way here. -/
def docsTail (pre : List String) (from_fkey : Bool) (tokens : List String) :
    List String × Bool :=
  if from_fkey = true ∨ AWS_DOCS.getD 0 "" ∈ tokens then
    (pre ++ [base_url ++ index_html], true)
  else (pre, false)

/-- Embedding of `Saws.handle_docs` (saws.py lines 177-229): returns the
web pages opened, in order, and the boolean result.  On `from_fkey` the
token `docs` is appended to the stripped text; with more than two tokens
ending in `docs`, a known second-to-last token opens a contextual page and
returns True, while an unknown one opens the index page and falls through
to the final check, which opens the index page again. -/
def handle_docs (commands sub_commands : List String) (text : String)
    (from_fkey : Bool) : List String × Bool :=
  let text2 :=
    if from_fkey then String.mk (pyStrip text.data) ++ " " ++ AWS_DOCS.getD 0 ""
    else text
  let tokens := wordsOf text2
  if 2 < tokens.length ∧ tokens.getLastD "" = AWS_DOCS.getD 0 "" then
    let prev := tokens.getD (tokens.length - 2) ""
    if prev ∈ commands then ([base_url ++ (prev ++ "/") ++ index_html], true)
    else if prev ∈ sub_commands then
      ([base_url ++ (tokens.getD (tokens.length - 3) "" ++ "/") ++ (prev ++ ".html")],
        true)
    else docsTail [base_url ++ index_html] from_fkey tokens
  else docsTail [] from_fkey tokens

/-- Embedding of `Saws.colorize_output` (saws.py lines 231-256): pipe the
stripped text through pygmentize unless color is off or the text mentions
the `configure` or `help` commands. -/
def colorize_output (color : Bool) (text : String) : String :=
  if !color then text
  else
    let stripped_text := String.mk (pyStrip text.data)
    if !(decide (List.IsInfix (AWS_CONFIGURE.getD 0 "").data stripped_text.data) ||
         decide (List.IsInfix (AWS_HELP.getD 0 "").data stripped_text.data)) then
      String.mk (pyStrip text.data) ++ " | pygmentize -l json"
    else text

/-- Outcome of one iteration of `Saws.run_cli`'s main loop. -/
inductive LoopAction where
  | docsHandled
  | usageError
  | execute (cmd : String)
deriving DecidableEq, Repr

/-- Embedding of one iteration of `Saws.run_cli` (saws.py lines 320-336):
expand shortcuts, handle a docs request, print the usage/error message when
the wrapped tool's command word is not a substring of the expanded text,
and otherwise hand the colorized text to the execution shell. -/
def run_cli_step (commands sub_commands : List String)
    (table : List (String × String)) (color : Bool) (input : String) : LoopAction :=
  let text := replace_shortcut table input
  if (handle_docs commands sub_commands text false).2 then .docsHandled
  else if !(decide (List.IsInfix (AWS_COMMAND.getD 0 "").data text.data)) then
    .usageError
  else .execute (colorize_output color text)

theorem data_append_space (a rest : String) :
    (a ++ " " ++ rest).data = a.data ++ ' ' :: rest.data := by
  rw [String.data_append, String.data_append]
  simp

/-- Claim C3: shortcut expansion round-trips and is idempotent — expanding
`a ++ " " ++ rest` for a registered alias `a` with expansion `e` yields
`e ++ " " ++ rest` for every rest-of-line string, and a line none of whose
tokens is a registered alias is returned unchanged. -/
theorem shortcut_round_trip_and_idempotent (table : List (String × String))
    (a e rest line : String)
    (ha : lookupExp table a = some e) (hsp : ' ' ∉ a.data)
    (hempty : lookupExp table "" = none)
    (hwords : ∀ t ∈ wordsOf line, lookupExp table t = none) :
    replace_shortcut table (a ++ " " ++ rest) = e ++ " " ++ rest ∧
    replace_shortcut table line = line := by
  refine ⟨?_, replace_shortcut_no_alias table line hempty hwords⟩
  unfold replace_shortcut
  rw [data_append_space, splitSp_append, splitSp_no_space a.data hsp,
    List.singleton_append]
  simp only [expandToks]
  have hmk : String.mk a.data = a := rfl
  rw [hmk, ha]
  rw [joinSp_cons _ _ (splitSp_ne_nil rest.data), joinSp_splitSp]
  rw [← data_append_space e rest]

/-- Witness for C3 at the spec's own example: alias `di` expanding to
`ec2 describe-instances`. -/
theorem shortcut_round_trip_witness :
    replace_shortcut [("di", "ec2 describe-instances")]
        ("di" ++ " " ++ "--filter running") =
      "ec2 describe-instances" ++ " " ++ "--filter running" ∧
    replace_shortcut [("di", "ec2 describe-instances")] "ls -la" = "ls -la" :=
  shortcut_round_trip_and_idempotent [("di", "ec2 describe-instances")]
    "di" "ec2 describe-instances" "--filter running" "ls -la"
    (by decide) (by decide) (by decide) (by decide)

/-- Claim C7: expansion of a line with no registered alias token is a no-op
and, being a total function, never an error. -/
theorem expand_unregistered_noop (table : List (String × String)) (line : String)
    (hempty : lookupExp table "" = none)
    (hwords : ∀ t ∈ wordsOf line, lookupExp table t = none) :
    replace_shortcut table line = line :=
  replace_shortcut_no_alias table line hempty hwords

/-- Witness for C7: a line of unregistered tokens is unchanged. -/
theorem expand_unregistered_noop_witness :
    replace_shortcut [("di", "ec2 describe-instances")]
        "ec2 describe-instances --filter running" =
      "ec2 describe-instances --filter running" :=
  expand_unregistered_noop [("di", "ec2 describe-instances")]
    "ec2 describe-instances --filter running" (by decide) (by decide)

theorem getLastD_mem (l : List String) (h : l ≠ []) : l.getLastD "" ∈ l := by
  rw [List.getLastD_eq_getLast?]
  cases hl : l.getLast? with
  | none => exact absurd (List.getLast?_eq_none_iff.mp hl) h
  | some a =>
    simp only [Option.getD_some]
    obtain ⟨hne, he⟩ := List.mem_getLast?_eq_getLast (Option.mem_def.mpr hl)
    rw [he]
    exact List.getLast_mem hne

theorem aws_docs_word : AWS_DOCS.getD 0 "" = "docs" := rfl

/-- Claim C10: `handle_docs` returns True exactly when invoked from the F1
key or when `docs` is among the whitespace-split tokens; and on a text of
more than two tokens ending in `docs` whose second-to-last token is neither
a known command nor a known sub-command, it opens the documentation index
page twice before returning True. -/
theorem handle_docs_true_iff (commands sub_commands : List String) (text : String) :
    (∀ fk : Bool, (handle_docs commands sub_commands text fk).2 = true ↔
      (fk = true ∨ "docs" ∈ wordsOf text)) ∧
    (2 < (wordsOf text).length → (wordsOf text).getLastD "" = "docs" →
      (wordsOf text).getD ((wordsOf text).length - 2) "" ∉ commands →
      (wordsOf text).getD ((wordsOf text).length - 2) "" ∉ sub_commands →
      handle_docs commands sub_commands text false =
        ([base_url ++ index_html, base_url ++ index_html], true)) := by
  constructor
  · intro fk
    cases fk with
    | true =>
      simp only [handle_docs, docsTail, aws_docs_word, true_or, iff_true]
      repeat' split
      all_goals simp_all
    | false =>
      simp only [handle_docs, docsTail, aws_docs_word, Bool.false_eq_true, false_or,
        if_false]
      split
      · rename_i hcond
        obtain ⟨hlen, hlast⟩ := hcond
        have hne : wordsOf text ≠ [] := by
          intro he
          rw [he] at hlen
          simp at hlen
        have hdocs : "docs" ∈ wordsOf text := hlast ▸ getLastD_mem _ hne
        split
        · simpa using hdocs
        · split
          · simpa using hdocs
          · simp_all
      · split
        · rename_i hor
          exact iff_of_true rfl hor
        · rename_i hor
          exact iff_of_false (by simp) hor
  · intro h1 h2 h3 h4
    have hne : wordsOf text ≠ [] := by
      intro he
      rw [he] at h1
      simp at h1
    have hdocs : "docs" ∈ wordsOf text := h2 ▸ getLastD_mem _ hne
    simp only [handle_docs, docsTail, aws_docs_word, Bool.false_eq_true, false_or,
      if_false]
    rw [if_pos ⟨h1, h2⟩, if_neg h3, if_neg h4, if_pos hdocs]
    rfl

/-- Witness for C10: three tokens ending in `docs` with an unknown
second-to-last token open the index page twice and return True. -/
theorem handle_docs_witness :
    handle_docs ["ec2"] ["describe-instances"] "x y docs" false =
      ([base_url ++ index_html, base_url ++ index_html], true) :=
  (handle_docs_true_iff ["ec2"] ["describe-instances"] "x y docs").2
    (by decide) (by decide) (by decide) (by decide)

/-- Claim C9: one iteration of `run_cli` forwards a submitted line to the
execution shell only when the shortcut-expanded text contains the wrapped
tool's command word as a substring; when it does not (and the line was not
handled as a docs request), the iteration ends in the usage/error message
and executes nothing. -/
theorem run_cli_gates_execution (commands sub_commands : List String)
    (table : List (String × String)) (color : Bool) (input : String) :
    (∀ cmd, run_cli_step commands sub_commands table color input = .execute cmd →
      List.IsInfix (AWS_COMMAND.getD 0 "").data (replace_shortcut table input).data) ∧
    ((handle_docs commands sub_commands (replace_shortcut table input) false).2 = false →
      ¬ List.IsInfix (AWS_COMMAND.getD 0 "").data (replace_shortcut table input).data →
      run_cli_step commands sub_commands table color input = .usageError) := by
  constructor
  · intro cmd h
    by_contra hni
    simp only [run_cli_step] at h
    split at h
    · exact LoopAction.noConfusion h
    · rw [if_pos (by simpa using hni)] at h
      exact LoopAction.noConfusion h
  · intro hdocs hni
    simp only [run_cli_step]
    rw [if_neg (by simp [hdocs]), if_pos (by simpa using hni)]

/-- Witness for C9: the line `ls` expands to itself, contains no `aws`, and
the iteration ends in the usage message. -/
theorem run_cli_gates_execution_witness :
    run_cli_step [] [] [] false "ls" = .usageError :=
  (run_cli_gates_execution [] [] [] false "ls").2 (by decide) (by decide)

theorem lookupEntry_setEntry (m : ResourceCache) (kind : String) (e : CacheEntry) :
    lookupEntry (setEntry m kind e) kind = some e := by
  unfold lookupEntry setEntry
  rw [List.find?_cons_of_pos _ (by simp)]

/-- Claim C4: when the external fetch for a resource kind fails, `refresh`
(forced) and `get` (on a cache miss, where it fetches) return the empty
sequence and record the EMPTY cache state; both functions are total, so the
failure is never propagated as an exception. -/
theorem cache_failure_empty (fetch : String → FetchResult) (m : ResourceCache)
    (kind : String) (hf : fetch kind = .failure) :
    (refresh fetch m kind true).2 = [] ∧
    lookupEntry (refresh fetch m kind true).1 kind =
      some { values := [], state := .empty } ∧
    (lookupEntry m kind = none →
      (AwsResources.get fetch m kind).2 = [] ∧
      lookupEntry (AwsResources.get fetch m kind).1 kind =
        some { values := [], state := .empty }) := by
  cases hlk : lookupEntry m kind with
  | none => simp [refresh, AwsResources.get, hlk, hf, lookupEntry_setEntry]
  | some e => simp [refresh, AwsResources.get, hlk, hf, lookupEntry_setEntry]

/-- Witness for C4 at the spec's scenario 3: an empty cache for kind
`ec2-instance-ids` whose fetch always fails. -/
theorem cache_failure_empty_witness :
    (refresh (fun _ => FetchResult.failure) [] "ec2-instance-ids" true).2 = [] ∧
    lookupEntry (refresh (fun _ => FetchResult.failure) [] "ec2-instance-ids" true).1
        "ec2-instance-ids" = some { values := [], state := .empty } ∧
    (lookupEntry [] "ec2-instance-ids" = none →
      (AwsResources.get (fun _ => FetchResult.failure) [] "ec2-instance-ids").2 = [] ∧
      lookupEntry (AwsResources.get (fun _ => FetchResult.failure) [] "ec2-instance-ids").1
          "ec2-instance-ids" = some { values := [], state := .empty }) :=
  cache_failure_empty (fun _ => FetchResult.failure) [] "ec2-instance-ids" rfl

theorem subseqB_iff (s t : List Char) : subseqB s t = true ↔ List.Sublist s t := by
  induction t generalizing s with
  | nil => cases s <;> simp [subseqB]
  | cons b bs ih =>
    cases s with
    | nil => simp [subseqB, List.nil_sublist]
    | cons a as =>
      simp only [subseqB]
      split
      · rename_i hab
        subst hab
        rw [ih]
        exact List.cons_sublist_cons.symm
      · rename_i hab
        rw [ih]
        constructor
        · exact fun h => h.cons b
        · intro h
          cases h with
          | cons _ h2 => exact h2
          | cons₂ _ h2 => exact absurd rfl hab

/-- Claim C5: the Fuzzy Matcher's `score` reports a match exactly when every
character of the input occurs in the candidate in order, case-insensitively
(a subsequence of the lowercased characters), and `fuzzyMatches` returns
exactly the matching candidates, ordered by the deterministic ranking
(shorter candidates first, then earliest greedy match positions, then the
candidate lexicographically); as a pure function it returns an identical
ordered result for identical inputs. -/
theorem score_subseq_and_ranking (input : String) (cands : List String) :
    (∀ c : String, score c input = true ↔
      List.Sublist (lowerL input.data) (lowerL c.data)) ∧
    (∀ c, c ∈ fuzzyMatches input cands ↔ c ∈ cands ∧ score c input = true) ∧
    List.Pairwise (rankLe input) (fuzzyMatches input cands) := by
  refine ⟨fun c => subseqB_iff _ _, fun c => ?_, ?_⟩
  · unfold fuzzyMatches
    rw [(List.perm_insertionSort (rankLe input) _).mem_iff, List.mem_filter]
  · haveI : IsTotal String (rankLe input) :=
      ⟨fun a b => le_total (rankKey input a) (rankKey input b)⟩
    haveI : IsTrans String (rankLe input) :=
      ⟨fun a b c hab hbc => le_trans hab hbc⟩
    exact List.sorted_insertionSort (rankLe input) _

theorem foldl_step_unknown (g : Grammar) (ts : List String) :
    ts.foldl (step g) Ctx.unknownCmd = Ctx.unknownCmd := by
  induction ts with
  | nil => rfl
  | cons t ts ih => simpa [step] using ih

/-- Claim C2: the context resolver advances past the COMMAND position only
when the first effective token is exactly equal to a known Command name; a
merely-prefix or unknown first token leaves the context at COMMAND. -/
theorem ctx_advances_only_on_exact (g : Grammar) (line : String)
    (h : isCommandCtx (resolveCtx g line).1 = false) :
    ∃ t, (effTokens g line).head? = some t ∧ t ∈ g.commands := by
  cases hts : effTokens g line with
  | nil =>
    exfalso
    unfold resolveCtx completedToks fragment at h
    rw [hts] at h
    cases htr : trailingSp line <;>
      simp [htr, isCommandCtx] at h
  | cons t ts =>
    by_cases hmem : t ∈ g.commands
    · exact ⟨t, rfl, hmem⟩
    · exfalso
      have hstep : step g Ctx.command t = Ctx.unknownCmd := by simp [step, hmem]
      unfold resolveCtx completedToks fragment at h
      rw [hts] at h
      cases htr : trailingSp line with
      | true =>
        rw [htr] at h
        simp [hstep, foldl_step_unknown, isCommandCtx] at h
      | false =>
        rw [htr] at h
        cases ts with
        | nil =>
          by_cases ht0 : t = ""
          · simp [ht0, isCommandCtx] at h
          · simp [ht0, advances, hmem, isCommandCtx] at h
        | cons t2 ts2 =>
          simp [hstep, foldl_step_unknown, advances, isCommandCtx, apply_ite] at h

/-- Witness for C2: after `ec2 ` (space-terminated exact command) the
context has advanced, and the first effective token is the exact command. -/
theorem ctx_advances_witness :
    ∃ t, (effTokens egGrammar "ec2 ").head? = some t ∧ t ∈ egGrammar.commands :=
  ctx_advances_only_on_exact egGrammar "ec2 " (by decide)

theorem mem_sortAlpha (l : List String) (c : String) : c ∈ sortAlpha l ↔ c ∈ l :=
  (List.perm_insertionSort _ _).mem_iff

theorem startsWithCI_of_prefix (p c : String) (h : p.data <+: c.data) :
    startsWithCI p c = true :=
  List.isPrefixOf_iff_prefix.mpr (h.map Char.toLower)

theorem data_ne_nil (p : String) (h0 : p ≠ "") : p.data ≠ [] := by
  intro he
  apply h0
  cases p with
  | mk d =>
    rw [show d = [] from he]

theorem wordsOf_single (p : String) (h0 : p ≠ "") (hs : ' ' ∉ p.data) :
    wordsOf p = [p] := by
  unfold wordsOf
  rw [splitSp_no_space p.data hs]
  have hne : p.data.isEmpty = false := by
    cases hd : p.data with
    | nil => exact absurd hd (data_ne_nil p h0)
    | cons a as => rfl
  simp [hne]

theorem trailingSp_false (p : String) (hs : ' ' ∉ p.data) :
    trailingSp p = false := by
  unfold trailingSp
  cases hl : p.data.getLast? with
  | none => rfl
  | some a =>
    obtain ⟨hne, he⟩ := List.mem_getLast?_eq_getLast (Option.mem_def.mpr hl)
    have hmem : a ∈ p.data := he.symm ▸ List.getLast_mem hne
    have ha : a ≠ ' ' := fun h2 => hs (h2 ▸ hmem)
    rw [beq_eq_false_iff_ne]
    intro h2
    exact ha (Option.some.inj h2)


theorem startsWithCI_empty (c : String) : startsWithCI "" c = true := by
  unfold startsWithCI lowerL
  simp [show ("" : String).data = [] from rfl, List.isPrefixOf]

theorem mem_complete_of_command (g : Grammar) (table : List (String × String))
    (dyn : List (String × List String)) (fm sm : Bool) (line : String) (c : String)
    (hc : c ∈ g.commands)
    (hctx : isCommandCtx (resolveCtx g line).1 = true)
    (hpref : startsWithCI (resolveCtx g line).2 c = true) :
    c ∈ complete g table dyn fm sm line := by
  simp only [complete]
  apply List.mem_append_left
  rw [mem_sortAlpha, List.mem_filter]
  refine ⟨List.mem_dedup.mpr ?_, hpref⟩
  cases hcase : (resolveCtx g line).1 with
  | command => exact List.mem_append_left _ hc
  | unknownCmd => exact List.mem_append_left _ hc
  | subcommand p =>
    rw [hcase] at hctx
    simp [isCommandCtx] at hctx
  | option p s =>
    rw [hcase] at hctx
    simp [isCommandCtx] at hctx
  | optionValue p s o =>
    rw [hcase] at hctx
    simp [isCommandCtx] at hctx

/-- Counterexample to C1 as stated: `"ec2"` is a known Command and a
non-empty prefix of itself, yet `complete "ec2"` does not contain `"ec2"` —
the exact token equality advances the context to SUBCOMMAND (section 4.1
tie-break), so the candidates are the sub-commands instead. -/
theorem complete_full_command_counterexample :
    "ec2" ∈ egGrammar.commands ∧ "ec2" ≠ "" ∧ "ec2".data <+: "ec2".data ∧
    "ec2" ∉ complete egGrammar [] [] false false "ec2" := by decide

/-- Claim C1 (amended): `complete ""` contains every known Command `c`, and
for every prefix `p` of `c` that is not itself exactly a known Command,
`complete p` also contains `c`. -/
theorem complete_contains_prefixed_command (g : Grammar)
    (table : List (String × String)) (dyn : List (String × List String))
    (fm sm : Bool) (c p : String)
    (hc : c ∈ g.commands) (hcs : ' ' ∉ c.data)
    (hp : p.data <+: c.data) (hpc : p ∉ g.commands) :
    c ∈ complete g table dyn fm sm "" ∧ c ∈ complete g table dyn fm sm p := by
  have hps : ' ' ∉ p.data := fun hm => hcs (hp.subset hm)
  have h0 : resolveCtx g "" = (Ctx.command, "") := rfl
  constructor
  · exact mem_complete_of_command g table dyn fm sm "" c hc (by rw [h0]; rfl) (by rw [h0]; exact startsWithCI_empty c)
  · by_cases hp0 : p = ""
    · subst hp0
      exact mem_complete_of_command g table dyn fm sm "" c hc (by rw [h0]; rfl) (by rw [h0]; exact startsWithCI_empty c)
    · have hw : wordsOf p = [p] := wordsOf_single p hp0 hps
      have htr : trailingSp p = false := trailingSp_false p hps
      by_cases hproot : p = g.root
      · have hres : resolveCtx g p = (Ctx.command, "") := by
          unfold resolveCtx completedToks fragment effTokens
          rw [hw, htr]
          simp [hproot]
        exact mem_complete_of_command g table dyn fm sm p c hc (by rw [hres]; rfl)
          (by rw [hres]; exact startsWithCI_empty c)
      · have hres : resolveCtx g p = (Ctx.command, p) := by
          unfold resolveCtx completedToks fragment effTokens
          rw [hw, htr]
          simp [hproot, hp0, advances, hpc]
        refine mem_complete_of_command g table dyn fm sm p c hc (by rw [hres]; rfl) ?_
        rw [hres]
        exact startsWithCI_of_prefix p c hp

/-- Witness for the amended C1: `ec` is a proper, non-command prefix of the
command `ec2`, and both `complete ""` and `complete "ec"` contain `ec2`. -/
theorem complete_contains_prefixed_command_witness :
    "ec2" ∈ complete egGrammar [] [] false false "" ∧
    "ec2" ∈ complete egGrammar [] [] false false "ec" :=
  complete_contains_prefixed_command egGrammar [] [] false false "ec2" "ec"
    (by decide) (by decide) (by decide) (by decide)

theorem sortAlpha_nodup (l : List String) (h : l.Nodup) : (sortAlpha l).Nodup :=
  (List.perm_insertionSort _ l).nodup_iff.mpr h

theorem sortAlpha_sorted (l : List String) :
    List.Sorted (fun a b : String => a ≤ b) (sortAlpha l) :=
  List.sorted_insertionSort _ _

theorem complete_groups (raw : List String) (frag : String) (fm : Bool)
    (hraw : raw.Nodup) :
    (sortAlpha (raw.filter (fun c => startsWithCI frag c)) ++
      (if (raw.filter (fun c => startsWithCI frag c)).isEmpty && fm then
        sortAlpha (raw.filter (fun c => score c frag)) else [])).Nodup ∧
    List.Sorted (fun a b : String => a ≤ b)
      (sortAlpha (raw.filter (fun c => startsWithCI frag c))) ∧
    List.Sorted (fun a b : String => a ≤ b)
      (if (raw.filter (fun c => startsWithCI frag c)).isEmpty && fm then
        sortAlpha (raw.filter (fun c => score c frag)) else []) ∧
    (∀ c ∈ sortAlpha (raw.filter (fun c => startsWithCI frag c)),
      startsWithCI frag c = true) ∧
    (∀ c ∈ (if (raw.filter (fun c => startsWithCI frag c)).isEmpty && fm then
        sortAlpha (raw.filter (fun c => score c frag)) else []),
      score c frag = true) := by
  refine ⟨?_, sortAlpha_sorted _, ?_, ?_, ?_⟩
  · by_cases hie : (raw.filter (fun c => startsWithCI frag c)).isEmpty
    · have hfe := List.isEmpty_iff.mp hie
      rw [hfe]
      cases fm with
      | true => simpa [sortAlpha, List.insertionSort] using
          sortAlpha_nodup _ (hraw.filter _)
      | false => simp [sortAlpha, List.insertionSort]
    · rw [if_neg (by simp [hie]), List.append_nil]
      exact sortAlpha_nodup _ (hraw.filter _)
  · split
    · exact sortAlpha_sorted _
    · exact List.sorted_nil
  · intro c hcm
    rw [mem_sortAlpha, List.mem_filter] at hcm
    exact hcm.2
  · intro c hcm
    split at hcm
    · rw [mem_sortAlpha, List.mem_filter] at hcm
      exact hcm.2
    · simp at hcm

/-- Claim C6: `complete` returns a finite, duplicate-free sequence split
into the exact-prefix group followed by the fuzzy group, each sorted
alphabetically. -/
theorem complete_nodup_ordered (g : Grammar) (table : List (String × String))
    (dyn : List (String × List String)) (fm sm : Bool) (line : String) :
    ∃ ex fz, complete g table dyn fm sm line = ex ++ fz ∧
      (ex ++ fz).Nodup ∧
      List.Sorted (fun a b : String => a ≤ b) ex ∧
      List.Sorted (fun a b : String => a ≤ b) fz ∧
      (∀ c ∈ ex, startsWithCI (resolveCtx g line).2 c = true) ∧
      (∀ c ∈ fz, score c (resolveCtx g line).2 = true) := by
  have h := complete_groups
    ((rawCandidates g dyn (table.map (fun p => p.1)) sm (resolveCtx g line).1).dedup)
    ((resolveCtx g line).2) fm (List.nodup_dedup _)
  exact ⟨_, _, rfl, h.1, h.2.1, h.2.2.1, h.2.2.2.1, h.2.2.2.2⟩
